import Mathlib

/-!
Verification of the rate-limited request queue (`RequestQueue` in
`src/services/firecrawl/utils.ts`) and the bounded-concurrency batch runners
(`executeParallel` in `src/services/firecrawl/utils.ts` and
`executeParallelTasks` in `src/services/openai/utils.ts`).

All definitions are shallow embeddings of the TypeScript source: timestamps are
`Int` milliseconds, durations are `Nat` milliseconds, asynchronous tasks are
represented by their settle time and settled outcome, and fallible runs return
`Option`/`Except` values.
-/

namespace DeepResearch

/-- The trailing rate window, in milliseconds: the literal `60000` in
`processQueue` (`const oneMinuteAgo = now - 60000`). -/
def windowMs : Int := 60000

/-- Embeds `this.requestTimestamps.filter(timestamp => timestamp > oneMinuteAgo)`
from `RequestQueue.processQueue` (utils.ts lines 60-62): drop every recorded
timestamp that is 60 seconds old or older at instant `now`. -/
def purgeTimestamps (now : Int) (ts : List Int) : List Int :=
  ts.filter (fun t => decide (now - windowMs < t))

/-- Admission-decision model of `RequestQueue.processQueue` (utils.ts lines
47-94), abstracted over the instants at which the queue attempts to advance:
`attempts` is the (monotone) sequence of values of `Date.now()` observed at
successive `processQueue` entries while tasks remain queued.  At each attempt
the stored timestamps are purged (line 60), then the task at the head of the
queue is admitted and `now` is pushed exactly when the purged count is strictly
below `maxRequestsPerMinute` (lines 65 and 79-81); otherwise admission is
deferred (lines 65-76).  The returned list is the sequence of admission
timestamps, in admission order. -/
def queueRun (R : Nat) : List Int → List Int → List Int
  | _, [] => []
  | ts, now :: rest =>
    let ts' := purgeTimestamps now ts
    if ts'.length < R then
      now :: queueRun R (ts' ++ [now]) rest
    else
      queueRun R ts' rest

/-- The number of admission timestamps falling in the trailing 60-second window
`(t - 60000, t]` ending at instant `t`. -/
def windowCount (t : Int) (adm : List Int) : Nat :=
  (adm.filter (fun a => decide (t - windowMs < a ∧ a ≤ t))).length

/-- `PrefixBound R adm`: at each admission `a` in `adm`, strictly fewer than `R`
of the earlier admissions lie inside the window `(a - 60000, a]`'s lower-bounded
part; this is exactly the guard `processQueue` checks before pushing `a`. -/
def PrefixBound (R : Nat) (adm : List Int) : Prop :=
  ∀ xs a ys, adm = xs ++ a :: ys →
    (xs.filter (fun x => decide (a - windowMs < x))).length < R

/-- Shape of a thrown JavaScript error as far as `executeWithRetry` inspects it
(`error instanceof FirecrawlError && error.statusCode === 429`, utils.ts line
108): whether the value is a `FirecrawlError`, and its `statusCode`. -/
structure JsErr where
  isFirecrawl : Bool
  statusCode : Nat
deriving DecidableEq, Repr

/-- The retry guard of `executeWithRetry`: retry only rate-limit errors. -/
def retryable (e : JsErr) : Bool :=
  e.isFirecrawl && e.statusCode == 429

/-- Embeds `RequestQueue.executeWithRetry` (utils.ts lines 99-120).  `f n` is
the outcome of the `n`-th invocation of `requestFn` (attempts are numbered from
1, matching the `attempt = 1` default).  `remaining` is the number of retries
still allowed, i.e. `retryCount + 1 - attempt`; the code retries exactly when
the error is a 429 `FirecrawlError` and `attempt <= retryCount`, which is
`remaining >= 1`.  Returns the index of the last attempt performed (= the total
number of `requestFn` invocations) together with the propagated outcome. -/
def executeWithRetryAux {α : Type _} (f : Nat → Except JsErr α) :
    Nat → Nat → Nat × Except JsErr α
  | remaining, attempt =>
    match f attempt with
    | .ok v => (attempt, .ok v)
    | .error e =>
      if retryable e then
        match remaining with
        | 0 => (attempt, .error e)
        | r + 1 => executeWithRetryAux f r (attempt + 1)
      else (attempt, .error e)

/-- `executeWithRetry` entered from `enqueue` with `attempt = 1` and
`this.options.retryCount` retries allowed. -/
def executeWithRetry {α : Type _} (retryCount : Nat) (f : Nat → Except JsErr α) :
    Nat × Except JsErr α :=
  executeWithRetryAux f retryCount 1

/-- Embeds the constructor normalization `options.retryCount || 3` (utils.ts
line 19): JavaScript `||` replaces the falsy value `0` (and an absent option)
by the default `3`. -/
def effRetryCount : Option Nat → Nat
  | none => 3
  | some n => if n = 0 then 3 else n

/-- Instrumented re-embedding of `executeWithRetry` that also accumulates the
elapsed time of the whole `await executeWithRetry(requestFn)`: each attempt
`n` takes `durOf n` ms (the awaited `requestFn()`), and after a retried failure
at attempt `n` the code sleeps `retryDelayMs * n` ms (utils.ts lines 114-117).
Returns (last attempt index, total elapsed ms, outcome). -/
def executeWithRetryT {α : Type _} (retryDelayMs : Nat) (f : Nat → Except JsErr α)
    (durOf : Nat → Nat) : Nat → Nat → Nat × Nat × Except JsErr α
  | remaining, attempt =>
    match f attempt with
    | .ok v => (attempt, durOf attempt, .ok v)
    | .error e =>
      if retryable e then
        match remaining with
        | 0 => (attempt, durOf attempt, .error e)
        | r + 1 =>
          let rest := executeWithRetryT retryDelayMs f durOf r (attempt + 1)
          (rest.1, durOf attempt + retryDelayMs * attempt + rest.2.1, rest.2.2)
      else (attempt, durOf attempt, .error e)

/-- One retry-aware task as submitted to the queue: its per-attempt outcomes
and per-attempt durations.  The settle duration of the task (from admission to
settlement of `executeWithRetry`) is computed by `executeWithRetryT`. -/
structure RetryTask where
  outcomeOf : Nat → Except JsErr Unit
  durOf : Nat → Nat

/-- Total time the queue spends awaiting a task admitted under configuration
(`retryCount`, `retryDelayMs`), retries and backoff sleeps included. -/
def settleDuration (retryCount retryDelayMs : Nat) (task : RetryTask) : Nat :=
  (executeWithRetryT retryDelayMs task.outcomeOf task.durOf retryCount 1).2.1

/-- The wait taken when the ceiling is reached (utils.ts lines 66-73):
`processQueue` re-runs after `60000 - (now - oldestTimestamp)` plus a 100 ms
buffer, i.e. at instant `oldest + 60000 + 100`.  `awaitSlotF` iterates that
deferral until the purged window has room, returning the admission instant and
the purged timestamp list at that instant.  The structural `fuel` only bounds
the number of deferrals: each deferral expires the oldest timestamp, so
`fuel = ts.length` always suffices (see `awaitSlotF_length_lt`), and the
fuel-exhausted branch is unreachable for any ceiling `R ≥ 1`. -/
def awaitSlotF : Nat → Nat → Int → List Int → Int × List Int
  | 0, _, now, ts => (now, purgeTimestamps now ts)
  | fuel + 1, R, now, ts =>
    if (purgeTimestamps now ts).length < R then (now, purgeTimestamps now ts)
    else
      match purgeTimestamps now ts with
      | [] => (now, [])
      | oldest :: rest => awaitSlotF fuel R (oldest + windowMs + 100) (oldest :: rest)

/-- Timed model of the drain loop of `RequestQueue` for a burst of tasks
enqueued synchronously: `processQueue` purges and checks the window
(`awaitSlotF`), admits the head task recording its admission instant (lines
79-81), then `await nextRequest()` — the admitted task, i.e. the whole
`executeWithRetry` call — runs to settlement before `setImmediate` re-enters
`processQueue` (lines 83-90).  Each task is abstracted by its settle duration
`d`; the result lists, per task in submission order, the pair
(admission instant, settlement instant).  The `else []` branch is unreachable
for `R ≥ 1` (`awaitSlotF_length_lt`); it corresponds to the drain loop of a
queue with ceiling 0 never admitting anything, which the constructor default
`maxRequestsPerMinute || 60` rules out. -/
def drainQueue (R : Nat) : Int → List Int → List Nat → List (Int × Int)
  | _, _, [] => []
  | now, ts, d :: rest =>
    let s := awaitSlotF ts.length R now ts
    if s.2.length < R then
      (s.1, s.1 + (d : Int)) :: drainQueue R (s.1 + (d : Int)) (s.2 ++ [s.1]) rest
    else []

/-- Stable insertion of a settled promise into a list ordered by settle time:
a promise settling at the same instant as an already-listed one settles after
it (JavaScript timers with equal deadlines fire in registration order). -/
def insertByTime {β : Type _} (x : Nat × β) : List (Nat × β) → List (Nat × β)
  | [] => [x]
  | y :: ys => if y.1 ≤ x.1 then y :: insertByTime x ys else x :: y :: ys

/-- Stable sort of a batch of settled promises by settle time: the order in
which the event loop observes their settlements. -/
def sortByTime {β : Type _} : List (Nat × β) → List (Nat × β)
  | [] => []
  | x :: xs => insertByTime x (sortByTime xs)

/-- The error carried by a settled task, if it failed. -/
def errPart {ε α : Type _} (p : Nat × Except ε α) : Option ε :=
  match p.2 with
  | .error e => some e
  | .ok _ => none

/-- The value carried by a settled task, if it succeeded. -/
def okPart {ε α : Type _} (p : Nat × Except ε α) : Option α :=
  match p.2 with
  | .ok v => some v
  | .error _ => none

/-- The errors of one concurrency batch in settlement order: `errors.push` runs
inside each task's `catch`, so errors accumulate in the order the rejections
are observed, not in list order. -/
def settleErrors {ε α : Type _} (batch : List (Nat × Except ε α)) : List ε :=
  (sortByTime batch).filterMap errPart

/-- The successful results of a list of settled tasks, in task order:
`Promise.all` returns results in input order and the runner keeps only the
non-`null` (non-failed) entries. -/
def successesOf {ε α : Type _} (l : List (Nat × Except ε α)) : List α :=
  l.filterMap okPart

/-- The errors of a list of settled tasks, in task order (used as the
order-insensitive reference multiset of failures). -/
def failuresOf {ε α : Type _} (l : List (Nat × Except ε α)) : List ε :=
  l.filterMap errPart

/-- Embeds `executeParallel` (src/services/firecrawl/utils.ts lines 153-198).
Each task is a settled promise `(settleTime, outcome)`; the `for` loop slices
consecutive batches of `maxConcurrent` tasks (`tasks.slice(i, i + maxConcurrent)`
with `i += maxConcurrent`).  In partial mode each failing task pushes its error
(in settlement order) and yields `null`, filtered out of `results` — the
embedding identifies the `null` sentinel with a failed task, as does the
source's final `as T[]` cast, which assumes no successful task resolves to
`null`; in abort
mode the first (earliest-settling) rejection of a batch is rethrown and the
accumulated results are discarded.  `fuel` counts loop iterations: when
`maxConcurrent ≥ 1` every iteration consumes at least one task, so
`fuel = tasks.length` suffices, while for `maxConcurrent = 0` the slice is
empty and the index never advances, so every fuel is exhausted — the JS loop
never terminates. -/
def executeParallel {ε α : Type _} (mc : Nat) (abortOnError : Bool) :
    Nat → List (Nat × Except ε α) → List α → List ε →
      Option (Except ε (List α × List ε))
  | _, [], results, errors => some (.ok (results, errors))
  | 0, _ :: _, _, _ => none
  | fuel + 1, l, results, errors =>
    let batch := l.take mc
    if abortOnError then
      match (settleErrors batch).head? with
      | some e => some (.error e)
      | none =>
        executeParallel mc abortOnError fuel (l.drop mc)
          (results ++ successesOf batch) errors
    else
      executeParallel mc abortOnError fuel (l.drop mc)
        (results ++ successesOf batch) (errors ++ settleErrors batch)

/-- An error observed by `executeParallelTasks`: either an error of the task
itself, or the runner's own `Error('Task timed out after N ms')`. -/
inductive RunError (ε : Type _) where
  | user (e : ε)
  | timeout (ms : Nat)
deriving DecidableEq, Repr

/-- Embeds the `Promise.race([task(), timeoutPromise])` of
`executeParallelTasks` (openai/utils.ts lines 116-123).  A task is
`(settleTime?, outcome)` where `none` is a task that never settles.  The race
settles with the task's own outcome when the task settles no later than the
timer (equal deadlines favour the task, whose timers are registered first),
and with the timeout error at `timeoutMs` otherwise. -/
def raceTimeout {ε α : Type _} (timeoutMs : Nat) (t : Option Nat × Except ε α) :
    Nat × Except (RunError ε) α :=
  match t.1 with
  | some tt =>
    if tt ≤ timeoutMs then (tt, t.2.mapError RunError.user)
    else (timeoutMs, .error (.timeout timeoutMs))
  | none => (timeoutMs, .error (.timeout timeoutMs))

/-- Embeds `executeParallelTasks` (src/services/openai/utils.ts lines 93-161):
identical batching to `executeParallel`, except that every task of a batch is
first raced against a `timeoutMs` timer. -/
def executeParallelTasks {ε α : Type _} (mc : Nat) (abortOnError : Bool)
    (timeoutMs : Nat) :
    Nat → List (Option Nat × Except ε α) → List α → List (RunError ε) →
      Option (Except (RunError ε) (List α × List (RunError ε)))
  | _, [], results, errors => some (.ok (results, errors))
  | 0, _ :: _, _, _ => none
  | fuel + 1, l, results, errors =>
    let batch := (l.take mc).map (raceTimeout timeoutMs)
    if abortOnError then
      match (settleErrors batch).head? with
      | some e => some (.error e)
      | none =>
        executeParallelTasks mc abortOnError timeoutMs fuel (l.drop mc)
          (results ++ successesOf batch) errors
    else
      executeParallelTasks mc abortOnError timeoutMs fuel (l.drop mc)
        (results ++ successesOf batch) (errors ++ settleErrors batch)

/-- The temporally first failure of a batched run: the earliest-settling error
of the earliest batch containing an error.  Since every earlier batch settles
completely before the next batch starts and batches are error-free before this
one, this is the first task failure the runner observes. -/
def firstFailure {ε α : Type _} (mc : Nat) : Nat → List (Nat × Except ε α) → Option ε
  | _, [] => none
  | 0, _ :: _ => none
  | fuel + 1, l =>
    match (settleErrors (l.take mc)).head? with
    | some e => some e
    | none => firstFailure mc fuel (l.drop mc)

theorem length_filter_mono {α : Type _} {p q : α → Bool} (l : List α)
    (h : ∀ x ∈ l, p x = true → q x = true) :
    (l.filter p).length ≤ (l.filter q).length := by
  induction l with
  | nil => simp
  | cons x xs ih =>
    have hx := h x (by simp)
    have ihh := ih (fun y hy hp => h y (by simp [hy]) hp)
    by_cases hpx : p x = true
    · rw [List.filter_cons_of_pos hpx, List.filter_cons_of_pos (hx hpx)]
      simpa using ihh
    · rw [List.filter_cons_of_neg (by simpa using hpx)]
      cases hqx : q x with
      | false => rw [List.filter_cons_of_neg (by simp [hqx])]; exact ihh
      | true =>
        rw [List.filter_cons_of_pos hqx]
        exact Nat.le_succ_of_le ihh

/-- Purely combinatorial step: the per-admission guard implies the global
sliding-window bound. -/
theorem prefixBound_windowCount {R : Nat} (adm : List Int)
    (hpre : PrefixBound R adm) (t : Int) : windowCount t adm ≤ R := by
  induction adm using List.reverseRecOn with
  | nil => simp [windowCount]
  | append_singleton xs a ih =>
    have hxs : PrefixBound R xs := by
      intro u b v huv
      exact hpre u b (v ++ [a]) (by simp [huv])
    by_cases hwin : (t - windowMs < a ∧ a ≤ t)
    · have hlast := hpre xs a [] rfl
      have hmono : (xs.filter (fun x => decide (t - windowMs < x ∧ x ≤ t))).length ≤
          (xs.filter (fun x => decide (a - windowMs < x))).length := by
        apply length_filter_mono
        intro x _ hx
        have hx' : t - windowMs < x ∧ x ≤ t := by simpa using hx
        have : a - windowMs ≤ t - windowMs := by omega
        simp only [decide_eq_true_eq]
        omega
      have : windowCount t (xs ++ [a]) =
          (xs.filter (fun x => decide (t - windowMs < x ∧ x ≤ t))).length + 1 := by
        simp [windowCount, List.filter_append, hwin]
      omega
    · have : windowCount t (xs ++ [a]) = windowCount t xs := by
        simp [windowCount, List.filter_append, hwin]
      rw [this]
      exact ih hxs

theorem queueRun_subset {R : Nat} :
    ∀ (ts attempts : List Int), ∀ x ∈ queueRun R ts attempts, x ∈ attempts := by
  intro ts attempts
  induction attempts generalizing ts with
  | nil => simp [queueRun]
  | cons now rest ih =>
    intro x hx
    simp only [queueRun] at hx
    by_cases hadm : (purgeTimestamps now ts).length < R
    · rw [if_pos hadm] at hx
      rcases List.mem_cons.mp hx with h | h
      · simp [h]
      · exact List.mem_cons_of_mem _ (ih _ x h)
    · rw [if_neg hadm] at hx
      exact List.mem_cons_of_mem _ (ih _ x hx)

theorem filter_window_purge {c now : Int} (hc : now ≤ c) (ts : List Int) :
    ((purgeTimestamps now ts).filter (fun x => decide (c - windowMs < x))).length =
      (ts.filter (fun x => decide (c - windowMs < x))).length := by
  unfold purgeTimestamps
  rw [List.filter_filter]
  congr 1
  apply List.filter_congr
  intro x _
  by_cases h : c - windowMs < x
  · have h2 : now - windowMs < x := by omega
    simp [h, h2]
  · simp [h]

theorem queueRun_prefixBound {R : Nat} :
    ∀ (ts attempts : List Int),
      attempts.Pairwise (· ≤ ·) →
      (∀ x ∈ ts, ∀ n ∈ attempts, x ≤ n) →
      ∀ xs a ys, queueRun R ts attempts = xs ++ a :: ys →
        ((ts ++ xs).filter (fun x => decide (a - windowMs < x))).length < R := by
  intro ts attempts
  induction attempts generalizing ts with
  | nil =>
    intro _ _ xs a ys h
    simp [queueRun] at h
  | cons now rest ih =>
    intro hmono hts xs a ys hrun
    have hmono' : rest.Pairwise (· ≤ ·) := (List.pairwise_cons.mp hmono).2
    have hnow_rest : ∀ n ∈ rest, now ≤ n := (List.pairwise_cons.mp hmono).1
    simp only [queueRun] at hrun
    by_cases hadm : (purgeTimestamps now ts).length < R
    · rw [if_pos hadm] at hrun
      cases xs with
      | nil =>
        simp only [List.nil_append, List.cons.injEq] at hrun
        have ha : a = now := hrun.1.symm
        subst ha
        simpa [purgeTimestamps] using hadm
      | cons x0 xs' =>
        simp only [List.cons_append, List.cons.injEq] at hrun
        obtain ⟨hx0, hrun'⟩ := hrun
        subst hx0
        have hts' : ∀ x ∈ purgeTimestamps now ts ++ [now], ∀ n ∈ rest, x ≤ n := by
          intro x hx n hn
          rcases List.mem_append.mp hx with h | h
          · exact hts x (List.mem_of_mem_filter h) n (List.mem_cons_of_mem _ hn)
          · simp only [List.mem_singleton] at h
            subst h
            exact hnow_rest n hn
        have hIH := ih (purgeTimestamps now ts ++ [now]) hmono' hts' xs' a ys hrun'
        have ha_mem : a ∈ rest := by
          have : a ∈ queueRun R (purgeTimestamps now ts ++ [now]) rest := by
            rw [hrun']; simp
          exact queueRun_subset _ _ a this
        have hna : now ≤ a := hnow_rest a ha_mem
        have heq := filter_window_purge (c := a) hna ts
        rw [← List.singleton_append]
        simp only [List.filter_append, List.length_append] at hIH ⊢
        omega
    · rw [if_neg hadm] at hrun
      have hts' : ∀ x ∈ purgeTimestamps now ts, ∀ n ∈ rest, x ≤ n := by
        intro x hx n hn
        exact hts x (List.mem_of_mem_filter hx) n (List.mem_cons_of_mem _ hn)
      have hIH := ih (purgeTimestamps now ts) hmono' hts' xs a ys hrun
      have ha_mem : a ∈ rest := by
        have : a ∈ queueRun R (purgeTimestamps now ts) rest := by
          rw [hrun]; simp
        exact queueRun_subset _ _ a this
      have hna : now ≤ a := hnow_rest a ha_mem
      have heq := filter_window_purge (c := a) hna ts
      simp only [List.filter_append, List.length_append] at hIH ⊢
      omega

/-- C1: for every monotone sequence of queue-advance instants, every trailing
60-second window of the produced admission timestamps holds at most `R`
entries: `processQueue` admits only when the purged count is strictly below
`maxRequestsPerMinute`, and defers otherwise. -/
theorem rate_ceiling_invariant (R : Nat) (attempts : List Int)
    (hmono : attempts.Pairwise (· ≤ ·)) (t : Int) :
    windowCount t (queueRun R [] attempts) ≤ R := by
  apply prefixBound_windowCount
  intro xs a ys h
  have := queueRun_prefixBound (R := R) [] attempts hmono (by simp) xs a ys h
  simpa using this

/-- Witness for C1 at a concrete input: ceiling 2, attempts at 0, 1, 2, 70000 ms. -/
theorem rate_ceiling_invariant_witness :
    List.Pairwise (· ≤ ·) ([0, 1, 2, 70000] : List Int) ∧
      windowCount 2 (queueRun 2 [] [0, 1, 2, 70000]) ≤ 2 :=
  ⟨by decide, rate_ceiling_invariant 2 [0, 1, 2, 70000] (by decide) 2⟩

theorem executeWithRetryAux_allRateLimited {α : Type _} (f : Nat → Except JsErr α)
    (hf : ∀ n, ∃ e, f n = .error e ∧ retryable e = true) :
    ∀ remaining attempt, ∃ e, f (attempt + remaining) = Except.error e ∧
      executeWithRetryAux f remaining attempt = (attempt + remaining, Except.error e) := by
  intro remaining
  induction remaining with
  | zero =>
    intro attempt
    obtain ⟨e, he, hr⟩ := hf attempt
    exact ⟨e, by simpa using he, by simp [executeWithRetryAux, he, hr]⟩
  | succ r ih =>
    intro attempt
    obtain ⟨e, he, hr⟩ := hf attempt
    obtain ⟨e', he', hrun⟩ := ih (attempt + 1)
    refine ⟨e', by rw [← he']; congr 1; omega, ?_⟩
    rw [executeWithRetryAux, he]
    simp only [hr, if_true]
    rw [hrun]
    congr 1
    omega

theorem purgeTimestamps_length_le (now : Int) (ts : List Int) :
    (purgeTimestamps now ts).length ≤ ts.length :=
  List.length_filter_le _ _

theorem purgeTimestamps_purgeTimestamps {now t : Int} (h : now ≤ t) (ts : List Int) :
    purgeTimestamps t (purgeTimestamps now ts) = purgeTimestamps t ts := by
  simp only [purgeTimestamps, List.filter_filter]
  apply List.filter_congr
  intro x _
  by_cases hx : t - windowMs < x
  · have h2 : now - windowMs < x := by omega
    simp [hx, h2]
  · simp [hx]

theorem head_purge_gt {now oldest : Int} {rest ts : List Int}
    (hts : purgeTimestamps now ts = oldest :: rest) : now - windowMs < oldest := by
  have hold : oldest ∈ purgeTimestamps now ts := by rw [hts]; simp
  have := List.of_mem_filter hold
  simpa using this

theorem awaitSlotF_now_le :
    ∀ (fuel R : Nat) (now : Int) (ts : List Int), now ≤ (awaitSlotF fuel R now ts).1 := by
  intro fuel
  induction fuel with
  | zero => intro R now ts; simp [awaitSlotF]
  | succ n ih =>
    intro R now ts
    by_cases hadm : (purgeTimestamps now ts).length < R
    · rw [awaitSlotF, if_pos hadm]
    · cases hts : purgeTimestamps now ts with
      | nil =>
        have hadm' : ¬ ([] : List Int).length < R := by rw [hts] at hadm; exact hadm
        rw [awaitSlotF, hts, if_neg hadm']
      | cons oldest rest =>
        have hgt : now - windowMs < oldest := head_purge_gt hts
        have h100 : now ≤ oldest + windowMs + 100 := by
          simp only [windowMs] at hgt ⊢
          omega
        have hstep : awaitSlotF (n + 1) R now ts =
            awaitSlotF n R (oldest + windowMs + 100) (oldest :: rest) := by
          rw [awaitSlotF, hts, if_neg (by rw [hts] at hadm; exact hadm)]
        rw [hstep]
        exact le_trans h100 (ih R (oldest + windowMs + 100) (oldest :: rest))

theorem awaitSlotF_length_lt :
    ∀ (fuel R : Nat) (now : Int) (ts : List Int), 1 ≤ R →
      (purgeTimestamps now ts).length ≤ fuel →
      (awaitSlotF fuel R now ts).2.length < R ∧
        ∃ t, now ≤ t ∧ awaitSlotF fuel R now ts = (t, purgeTimestamps t ts) := by
  intro fuel
  induction fuel with
  | zero =>
    intro R now ts hR hlen
    have h0 : (purgeTimestamps now ts).length = 0 := Nat.le_zero.mp hlen
    constructor
    · show (purgeTimestamps now ts).length < R
      omega
    · exact ⟨now, le_refl now, rfl⟩
  | succ n ih =>
    intro R now ts hR hlen
    by_cases hadm : (purgeTimestamps now ts).length < R
    · rw [awaitSlotF, if_pos hadm]
      exact ⟨hadm, now, le_refl now, rfl⟩
    · cases hts : purgeTimestamps now ts with
      | nil =>
        rw [hts] at hadm
        simp at hadm
        omega
      | cons oldest rest =>
        have hgt : now - windowMs < oldest := head_purge_gt hts
        have hdrop : ¬ ((oldest + windowMs + 100) - windowMs < oldest) := by omega
        have hsub : purgeTimestamps (oldest + windowMs + 100) (oldest :: rest) =
            purgeTimestamps (oldest + windowMs + 100) rest := by
          simp [purgeTimestamps, List.filter_cons, hdrop]
        have hlen2 : (purgeTimestamps (oldest + windowMs + 100) (oldest :: rest)).length ≤ n := by
          rw [hsub]
          have := purgeTimestamps_length_le (oldest + windowMs + 100) rest
          have hlen' : (oldest :: rest).length ≤ n + 1 := by rw [← hts]; exact hlen
          simp at hlen'
          omega
        have hstep : awaitSlotF (n + 1) R now ts =
            awaitSlotF n R (oldest + windowMs + 100) (oldest :: rest) := by
          rw [awaitSlotF, hts, if_neg (by rw [hts] at hadm; exact hadm)]
        obtain ⟨hlt, t, htle, ht⟩ := ih R (oldest + windowMs + 100) (oldest :: rest) hR hlen2
        rw [hstep, ht]
        have hnt : now ≤ t := by
          have : now ≤ oldest + windowMs + 100 := by
            simp only [windowMs] at hgt ⊢
            omega
          omega
        refine ⟨by rw [ht] at hlt; exact hlt, t, hnt, ?_⟩
        have h1 : purgeTimestamps t (oldest :: rest) = purgeTimestamps t ts := by
          rw [← hts, purgeTimestamps_purgeTimestamps hnt]
        rw [h1]

theorem drainQueue_now_le (R : Nat) :
    ∀ (ds : List Nat) (now : Int) (ts : List Int),
      ∀ p ∈ drainQueue R now ts ds, now ≤ p.1 ∧ p.1 ≤ p.2 := by
  intro ds
  induction ds with
  | nil => intro now ts p hp; simp [drainQueue] at hp
  | cons d rest ih =>
    intro now ts p hp
    rw [drainQueue] at hp
    by_cases hadm : (awaitSlotF ts.length R now ts).2.length < R
    · rw [if_pos hadm] at hp
      have hnls := awaitSlotF_now_le ts.length R now ts
      rcases List.mem_cons.mp hp with h | h
      · subst h
        refine ⟨hnls, by simp⟩
      · have := ih ((awaitSlotF ts.length R now ts).1 + (d : Int))
          ((awaitSlotF ts.length R now ts).2 ++ [(awaitSlotF ts.length R now ts).1]) p h
        refine ⟨?_, this.2⟩
        have hd : (0 : Int) ≤ (d : Int) := Int.natCast_nonneg d
        omega
    · rw [if_neg hadm] at hp
      simp at hp

/-- The serialization fact: in the drain loop every task settles before the
next admission instant. -/
theorem drainQueue_serialized (R : Nat) :
    ∀ (ds : List Nat) (now : Int) (ts : List Int),
      (drainQueue R now ts ds).Chain' (fun p q => p.2 ≤ q.1) := by
  intro ds
  induction ds with
  | nil => intro now ts; simp [drainQueue]
  | cons d rest ih =>
    intro now ts
    rw [drainQueue]
    by_cases hadm : (awaitSlotF ts.length R now ts).2.length < R
    · rw [if_pos hadm]
      apply List.chain'_cons'.mpr
      refine ⟨?_, ih _ _⟩
      intro q hq
      have := drainQueue_now_le R rest ((awaitSlotF ts.length R now ts).1 + (d : Int))
        ((awaitSlotF ts.length R now ts).2 ++ [(awaitSlotF ts.length R now ts).1]) q
        (List.mem_of_mem_head? hq)
      exact this.1
    · rw [if_neg hadm]
      simp

theorem drainQueue_durations (R : Nat) (hR : 1 ≤ R) :
    ∀ (ds : List Nat) (now : Int) (ts : List Int),
      (drainQueue R now ts ds).map (fun p => p.2 - p.1) = ds.map Int.ofNat := by
  intro ds
  induction ds with
  | nil => intro now ts; simp [drainQueue]
  | cons d rest ih =>
    intro now ts
    rw [drainQueue]
    have hfits : (purgeTimestamps now ts).length ≤ ts.length :=
      purgeTimestamps_length_le now ts
    obtain ⟨hlt, _⟩ := awaitSlotF_length_lt ts.length R now ts hR hfits
    rw [if_pos hlt]
    simp only [List.map_cons]
    rw [ih]
    congr 1
    simp

theorem drainQueue_length (R : Nat) (hR : 1 ≤ R) (ds : List Nat) (now : Int) (ts : List Int) :
    (drainQueue R now ts ds).length = ds.length := by
  have h := drainQueue_durations R hR ds now ts
  have h1 : ((drainQueue R now ts ds).map (fun p => p.2 - p.1)).length =
      (ds.map Int.ofNat).length := by rw [h]
  simpa using h1

theorem chain'_fst_le (l : List (Int × Int)) (hser : l.Chain' (fun p q => p.2 ≤ q.1))
    (hmem : ∀ p ∈ l, p.1 ≤ p.2) : l.Chain' (fun p q => p.1 ≤ q.1) := by
  induction l with
  | nil => simp
  | cons a l ih =>
    rw [List.chain'_cons'] at hser ⊢
    refine ⟨?_, ih hser.2 (fun p hp => hmem p (List.mem_cons_of_mem _ hp))⟩
    intro q hq
    have h1 := hser.1 q hq
    have h2 := hmem a (by simp)
    omega

/-- C2 counterexample: two tasks enqueued at instant 0 on a queue whose ceiling
(10/min) is never reached.  When the first task takes 1000 ms to settle, the
second task is admitted only at instant 1000 — exactly the first task's
completion instant; when the first task settles instantly, the second is
admitted at instant 0.  The later task's admission therefore does wait on the
earlier task's completion, not merely on its admission: `processQueue` runs
`await nextRequest()` to settlement before `setImmediate` schedules the next
admission attempt (utils.ts lines 83-90). -/
theorem admission_decoupling_counterexample :
    drainQueue 10 0 [] [1000, 5] = [(0, 1000), (1000, 1005)] ∧
      drainQueue 10 0 [] [0, 5] = [(0, 0), (0, 5)] := by
  constructor <;> decide

/-- C2 (amended): admission is serialized behind completion — in every drain of
the queue, each admitted task's settlement instant (retries included) is at
most the next task's admission instant, because `processQueue` awaits the
admitted task before scheduling the next admission attempt. -/
theorem admission_serialized_after_completion (R : Nat) (now : Int) (ts : List Int)
    (ds : List Nat) :
    (drainQueue R now ts ds).Chain' (fun p q => p.2 ≤ q.1) :=
  drainQueue_serialized R ds now ts

/-- C3 counterexample: a queue configured with `retryCount = 0` and a task
failing every attempt with a 429 `FirecrawlError` performs 4 attempts, not
`0 + 1 = 1`: the constructor's `options.retryCount || 3` (utils.ts line 19)
replaces the falsy configured value 0 by the default 3. -/
theorem retry_count_zero_counterexample :
    (executeWithRetry (effRetryCount (some 0))
        (fun _ => Except.error ⟨true, 429⟩) : Nat × Except JsErr Unit).1 = 4 ∧
      (4 : Nat) ≠ 0 + 1 := by
  constructor
  · decide
  · decide

/-- C3 (amended): for every *positive* configured `retryCount` (a configured 0
is replaced by the default 3 by `options.retryCount || 3`): a task failing
every attempt with a rate-limit error (`FirecrawlError` with `statusCode`
429) is attempted exactly `retryCount + 1` times and the final error
propagates; a task failing with any other error is attempted exactly once and
that error propagates immediately. -/
theorem retry_semantics (retryCount : Nat) (hrc : 1 ≤ retryCount) {α : Type}
    (f : Nat → Except JsErr α)
    (hf : ∀ n, ∃ e, f n = Except.error e ∧ retryable e = true) :
    effRetryCount (some retryCount) = retryCount ∧
      (∃ e, f (retryCount + 1) = Except.error e ∧
        executeWithRetry retryCount f = (retryCount + 1, Except.error e)) ∧
      (∀ (g : Nat → Except JsErr α) (e : JsErr), g 1 = Except.error e →
        retryable e = false → executeWithRetry retryCount g = (1, Except.error e)) := by
  refine ⟨?_, ?_, ?_⟩
  · have : retryCount ≠ 0 := by omega
    simp [effRetryCount, this]
  · obtain ⟨e, he, hrun⟩ := executeWithRetryAux_allRateLimited f hf retryCount 1
    refine ⟨e, ?_, ?_⟩
    · rw [← he]; congr 1; omega
    · rw [executeWithRetry, hrun]; congr 1; omega
  · intro g e hg hre
    rw [executeWithRetry, executeWithRetryAux, hg]
    simp [hre]

/-- Witness for `retry_semantics` with `retryCount = 2` and a task failing
every attempt with a 429 `FirecrawlError`. -/
theorem retry_semantics_witness :
    1 ≤ 2 ∧ (∀ n : Nat, ∃ e, (fun _ : Nat => (Except.error ⟨true, 429⟩ : Except JsErr Unit)) n =
        Except.error e ∧ retryable e = true) ∧
      (effRetryCount (some 2) = 2 ∧
        (∃ e, (fun _ : Nat => (Except.error ⟨true, 429⟩ : Except JsErr Unit)) (2 + 1) =
            Except.error e ∧
          executeWithRetry 2 (fun _ : Nat => (Except.error ⟨true, 429⟩ : Except JsErr Unit)) =
            (2 + 1, Except.error e)) ∧
        (∀ (g : Nat → Except JsErr Unit) (e : JsErr), g 1 = Except.error e →
          retryable e = false → executeWithRetry 2 g = (1, Except.error e))) :=
  ⟨by decide, fun _ => ⟨⟨true, 429⟩, rfl, rfl⟩,
    retry_semantics 2 (by decide) _ (fun _ => ⟨⟨true, 429⟩, rfl, rfl⟩)⟩

/-- C9: tasks enqueued synchronously are admitted in FIFO submission order:
the admission instants of the drain trace are monotone, and the `i`-th entry of
the trace is the admission of the `i`-th submitted task (its settlement lasts
exactly that task's duration), so no task starts before every earlier-enqueued
task has been admitted. -/
theorem fifo_admission (R : Nat) (hR : 1 ≤ R) (now : Int) (ts : List Int) (ds : List Nat) :
    ((drainQueue R now ts ds).map Prod.fst).Chain' (· ≤ ·) ∧
      (drainQueue R now ts ds).map (fun p => p.2 - p.1) = ds.map Int.ofNat := by
  refine ⟨?_, drainQueue_durations R hR ds now ts⟩
  rw [List.chain'_map]
  exact chain'_fst_le _ (drainQueue_serialized R ds now ts)
    (fun p hp => (drainQueue_now_le R ds now ts p hp).2)

/-- Witness for `fifo_admission`: ceiling 1/min, two tasks of durations 5 and 7 ms. -/
theorem fifo_admission_witness :
    1 ≤ 1 ∧ (((drainQueue 1 0 [] [5, 7]).map Prod.fst).Chain' (· ≤ ·) ∧
      (drainQueue 1 0 [] [5, 7]).map (fun p => p.2 - p.1) = [5, 7].map Int.ofNat) :=
  ⟨by decide, fifo_admission 1 (by decide) 0 [] [5, 7]⟩

/-- C10: every enqueued task records exactly one admission timestamp, at its
admission, regardless of how many attempts `executeWithRetry` performs: the
drain trace of a burst of retrying tasks records precisely one timestamp per
task (`executeWithRetry` retries by calling `requestFn` directly, utils.ts
line 118, never re-entering `processQueue`'s admission path). -/
theorem one_timestamp_per_task (R : Nat) (hR : 1 ≤ R) (now : Int) (ts : List Int)
    (retryCount retryDelayMs : Nat) (tasks : List RetryTask) :
    ((drainQueue R now ts
        (tasks.map (settleDuration retryCount retryDelayMs))).map Prod.fst).length
      = tasks.length := by
  rw [List.length_map,
    drainQueue_length R hR (tasks.map (settleDuration retryCount retryDelayMs)) now ts,
    List.length_map]

/-- Witness for `one_timestamp_per_task`: one task that always fails with a 429
error, retried 3 times with 10 ms backoff, ceiling 1/min. -/
theorem one_timestamp_per_task_witness :
    1 ≤ 1 ∧ ((drainQueue 1 0 []
        (([⟨fun _ => Except.error ⟨true, 429⟩, fun _ => 1⟩] : List RetryTask).map
          (settleDuration 3 10))).map Prod.fst).length = 1 :=
  ⟨by decide, one_timestamp_per_task 1 (by decide) 0 [] 3 10
    [⟨fun _ => Except.error ⟨true, 429⟩, fun _ => 1⟩]⟩

theorem insertByTime_perm {β : Type _} (x : Nat × β) (l : List (Nat × β)) :
    (insertByTime x l).Perm (x :: l) := by
  induction l with
  | nil => simp [insertByTime]
  | cons y ys ih =>
    rw [insertByTime]
    by_cases h : y.1 ≤ x.1
    · rw [if_pos h]
      exact (ih.cons y).trans (List.Perm.swap x y ys)
    · rw [if_neg h]

theorem sortByTime_perm {β : Type _} (l : List (Nat × β)) : (sortByTime l).Perm l := by
  induction l with
  | nil => simp [sortByTime]
  | cons x xs ih =>
    rw [sortByTime]
    exact (insertByTime_perm x (sortByTime xs)).trans (ih.cons x)

theorem settleErrors_perm {ε α : Type _} (batch : List (Nat × Except ε α)) :
    (settleErrors batch).Perm (failuresOf batch) :=
  (sortByTime_perm batch).filterMap errPart

theorem successesOf_append {ε α : Type _} (l₁ l₂ : List (Nat × Except ε α)) :
    successesOf (l₁ ++ l₂) = successesOf l₁ ++ successesOf l₂ := by
  simp [successesOf, List.filterMap_append]

theorem failuresOf_append {ε α : Type _} (l₁ l₂ : List (Nat × Except ε α)) :
    failuresOf (l₁ ++ l₂) = failuresOf l₁ ++ failuresOf l₂ := by
  simp [failuresOf, List.filterMap_append]

theorem successes_failures_length {ε α : Type _} (l : List (Nat × Except ε α)) :
    (successesOf l).length + (failuresOf l).length = l.length := by
  induction l with
  | nil => simp [successesOf, failuresOf]
  | cons x xs ih =>
    cases hx : x.2 with
    | ok v =>
      simp only [successesOf, failuresOf, List.filterMap_cons, okPart, errPart, hx] at *
      simp only [List.length_cons]
      omega
    | error e =>
      simp only [successesOf, failuresOf, List.filterMap_cons, okPart, errPart, hx] at *
      simp only [List.length_cons]
      omega

/-- Partial-failure mode of `executeParallel`: the run terminates with the
successes of all tasks in task order appended to `res`, and some permutation
(the settlement order, batch by batch) of all failures appended to `errs`. -/
theorem executeParallel_partial {ε α : Type _} (mc : Nat) (hmc : 1 ≤ mc) :
    ∀ (fuel : Nat) (l : List (Nat × Except ε α)) (res : List α) (errs : List ε),
      l.length ≤ fuel →
      ∃ E, executeParallel mc false fuel l res errs =
          some (.ok (res ++ successesOf l, errs ++ E)) ∧ E.Perm (failuresOf l) := by
  intro fuel
  induction fuel with
  | zero =>
    intro l res errs hlen
    have h0 : l = [] := List.length_eq_zero.mp (Nat.le_zero.mp hlen)
    subst h0
    exact ⟨[], by simp [executeParallel, successesOf], by simp [failuresOf]⟩
  | succ n ih =>
    intro l res errs hlen
    cases l with
    | nil => exact ⟨[], by simp [executeParallel, successesOf], by simp [failuresOf]⟩
    | cons x xs =>
      have hlen2 : ((x :: xs).drop mc).length ≤ n := by
        rw [List.length_drop]
        simp only [List.length_cons] at hlen ⊢
        omega
      obtain ⟨E, hrun, hperm⟩ := ih ((x :: xs).drop mc)
        (res ++ successesOf ((x :: xs).take mc))
        (errs ++ settleErrors ((x :: xs).take mc)) hlen2
      refine ⟨settleErrors ((x :: xs).take mc) ++ E, ?_, ?_⟩
      · rw [executeParallel]
        simp only [Bool.false_eq_true, if_false]
        rw [hrun]
        have hsucc : (res ++ successesOf ((x :: xs).take mc)) ++ successesOf ((x :: xs).drop mc)
            = res ++ successesOf (x :: xs) := by
          rw [List.append_assoc, ← successesOf_append, List.take_append_drop]
        have herrs : (errs ++ settleErrors ((x :: xs).take mc)) ++ E
            = errs ++ (settleErrors ((x :: xs).take mc) ++ E) := by
          rw [List.append_assoc]
        rw [hsucc, herrs]
        all_goals simp
      · have h1 := settleErrors_perm ((x :: xs).take mc)
        have h2 : failuresOf (x :: xs) =
            failuresOf ((x :: xs).take mc) ++ failuresOf ((x :: xs).drop mc) := by
          rw [← failuresOf_append, List.take_append_drop]
        rw [h2]
        exact h1.append hperm

/-- Abort mode of `executeParallel`: when the scan finds a failure, the whole
call rejects with the temporally first failure and discards every accumulated
result. -/
theorem executeParallel_abort {ε α : Type _} (mc : Nat) :
    ∀ (fuel : Nat) (l : List (Nat × Except ε α)) (res : List α) (errs : List ε) (e : ε),
      firstFailure mc fuel l = some e →
      executeParallel mc true fuel l res errs = some (.error e) := by
  intro fuel
  induction fuel with
  | zero =>
    intro l res errs e hff
    cases l <;> simp [firstFailure] at hff
  | succ n ih =>
    intro l res errs e hff
    cases l with
    | nil => simp [firstFailure] at hff
    | cons x xs =>
      rw [firstFailure] at hff
      rw [executeParallel]
      simp only [if_true]
      cases hh : (settleErrors ((x :: xs).take mc)).head? with
      | some e' =>
        rw [hh] at hff
        simp only [Option.some.injEq] at hff
        simp [hff]
      | none =>
        rw [hh] at hff
        simp only at hff
        simp only []
        exact ih ((x :: xs).drop mc) (res ++ successesOf ((x :: xs).take mc)) errs e hff
      all_goals simp

/-- If some task of the list fails, the batched scan finds a first failure. -/
theorem firstFailure_of_failures {ε α : Type _} (mc : Nat) (hmc : 1 ≤ mc) :
    ∀ (fuel : Nat) (l : List (Nat × Except ε α)), l.length ≤ fuel →
      failuresOf l ≠ [] → ∃ e, firstFailure mc fuel l = some e := by
  intro fuel
  induction fuel with
  | zero =>
    intro l hlen hfail
    have h0 : l = [] := List.length_eq_zero.mp (Nat.le_zero.mp hlen)
    subst h0
    simp [failuresOf] at hfail
  | succ n ih =>
    intro l hlen hfail
    cases l with
    | nil => simp [failuresOf] at hfail
    | cons x xs =>
      cases hh : (settleErrors ((x :: xs).take mc)).head? with
      | some e => exact ⟨e, by simp [firstFailure, hh]⟩
      | none =>
        have h1 : settleErrors ((x :: xs).take mc) = [] := by
          rwa [List.head?_eq_none_iff] at hh
        have h2 := settleErrors_perm ((x :: xs).take mc)
        rw [h1] at h2
        have hple : failuresOf ((x :: xs).take mc) = [] := List.Perm.eq_nil h2.symm
        have hsplit : failuresOf (x :: xs) =
            failuresOf ((x :: xs).take mc) ++ failuresOf ((x :: xs).drop mc) := by
          rw [← failuresOf_append, List.take_append_drop]
        rw [hple, List.nil_append] at hsplit
        have hfail' : failuresOf ((x :: xs).drop mc) ≠ [] := by
          rw [← hsplit]; exact hfail
        have hlen' : ((x :: xs).drop mc).length ≤ n := by
          rw [List.length_drop]
          simp only [List.length_cons] at hlen ⊢
          omega
        obtain ⟨e, he⟩ := ih _ hlen' hfail'
        exact ⟨e, by simp [firstFailure, hh, he]⟩

/-- `executeParallelTasks` is `executeParallel` applied to the raced tasks:
the openai runner only adds the per-task timeout race before the shared
batching logic. -/
theorem executeParallelTasks_eq {ε α : Type _} (mc : Nat) (ab : Bool) (tm : Nat) :
    ∀ (fuel : Nat) (l : List (Option Nat × Except ε α)) (res : List α)
      (errs : List (RunError ε)),
      executeParallelTasks mc ab tm fuel l res errs =
        executeParallel mc ab fuel (l.map (raceTimeout tm)) res errs := by
  intro fuel
  induction fuel with
  | zero =>
    intro l res errs
    cases l <;> simp [executeParallelTasks, executeParallel]
  | succ n ih =>
    intro l res errs
    cases l with
    | nil => simp [executeParallelTasks, executeParallel]
    | cons x xs =>
      simp only [executeParallelTasks, executeParallel, List.map_cons, ih]
      rw [← List.map_cons (raceTimeout tm) x xs, List.map_take, List.map_drop]
      split
      · split <;> simp_all
      · rfl

/-- C4: in partial mode (`abortOnError = false`) every input task contributes
exactly one entry to exactly one of the two lists: the returned successes plus
the accumulated errors count the input tasks, for both batch runners. -/
theorem partial_mode_accounting {ε α : Type _} (mc fuel tm : Nat) (hmc : 1 ≤ mc)
    (tasks : List (Nat × Except ε α)) (hfuel : tasks.length ≤ fuel)
    (tasks2 : List (Option Nat × Except ε α)) (hfuel2 : tasks2.length ≤ fuel) :
    (∃ res errs, executeParallel mc false fuel tasks [] [] =
        some (Except.ok (res, errs)) ∧ res.length + errs.length = tasks.length) ∧
    (∃ res errs, executeParallelTasks mc false tm fuel tasks2 [] [] =
        some (Except.ok (res, errs)) ∧ res.length + errs.length = tasks2.length) := by
  constructor
  · obtain ⟨E, hrun, hperm⟩ := executeParallel_partial mc hmc fuel tasks [] [] hfuel
    refine ⟨successesOf tasks, E, by simpa using hrun, ?_⟩
    have h1 := successes_failures_length tasks
    have h2 := hperm.length_eq
    omega
  · rw [executeParallelTasks_eq]
    obtain ⟨E, hrun, hperm⟩ := executeParallel_partial mc hmc fuel
      (tasks2.map (raceTimeout tm)) [] [] (by simpa using hfuel2)
    refine ⟨successesOf (tasks2.map (raceTimeout tm)), E, by simpa using hrun, ?_⟩
    have h1 := successes_failures_length (tasks2.map (raceTimeout tm))
    have h2 := hperm.length_eq
    have h3 : (tasks2.map (raceTimeout tm)).length = tasks2.length := by simp
    omega

/-- Witness for `partial_mode_accounting`: three tasks, one failing, run with
`maxConcurrent = 2`. -/
theorem partial_mode_accounting_witness :
    1 ≤ 2 ∧ (3 : Nat) ≤ 3 ∧ (3 : Nat) ≤ 3 ∧
      ((∃ res errs, executeParallel 2 false 3
            ([(1, Except.ok 10), (2, Except.error 7), (3, Except.ok 30)] :
              List (Nat × Except Nat Nat)) [] [] =
          some (Except.ok (res, errs)) ∧ res.length + errs.length = 3) ∧
        (∃ res errs, executeParallelTasks 2 false 50 3
            ([(some 1, Except.ok 10), (some 2, Except.error 7), (some 3, Except.ok 30)] :
              List (Option Nat × Except Nat Nat)) [] [] =
          some (Except.ok (res, errs)) ∧ res.length + errs.length = 3)) :=
  ⟨by decide, by decide, by decide,
    partial_mode_accounting 2 3 50 (by decide)
      [(1, Except.ok 10), (2, Except.error 7), (3, Except.ok 30)] (by decide)
      [(some 1, Except.ok 10), (some 2, Except.error 7), (some 3, Except.ok 30)] (by decide)⟩

/-- C5: in partial mode the returned successes are exactly the successful
outcomes in the relative order of their source tasks (failures simply
omitted), and the error list collects exactly the failed tasks' errors (in
settlement order, a permutation of the task-order failures); in particular for
[A(success), B(failure), C(success)] the successes are [A, C] and the error
list is exactly [B's error]. -/
theorem partial_mode_survivor_order {ε α : Type _} (mc fuel tm : Nat) (hmc : 1 ≤ mc)
    (tasks : List (Nat × Except ε α)) (hfuel : tasks.length ≤ fuel)
    (tasks2 : List (Option Nat × Except ε α)) (hfuel2 : tasks2.length ≤ fuel) :
    (∃ errs, executeParallel mc false fuel tasks [] [] =
        some (Except.ok (successesOf tasks, errs)) ∧ errs.Perm (failuresOf tasks)) ∧
    (∃ errs, executeParallelTasks mc false tm fuel tasks2 [] [] =
        some (Except.ok (successesOf (tasks2.map (raceTimeout tm)), errs)) ∧
        errs.Perm (failuresOf (tasks2.map (raceTimeout tm)))) := by
  constructor
  · obtain ⟨E, hrun, hperm⟩ := executeParallel_partial mc hmc fuel tasks [] [] hfuel
    exact ⟨E, by simpa using hrun, hperm⟩
  · rw [executeParallelTasks_eq]
    obtain ⟨E, hrun, hperm⟩ := executeParallel_partial mc hmc fuel
      (tasks2.map (raceTimeout tm)) [] [] (by simpa using hfuel2)
    exact ⟨E, by simpa using hrun, hperm⟩

/-- Witness for `partial_mode_survivor_order` at the claim's concrete instance
[A(success), B(failure), C(success)]: the survivors are [10, 30] in order and
the failures are exactly [7]. -/
theorem partial_mode_survivor_order_witness :
    1 ≤ 2 ∧ (3 : Nat) ≤ 3 ∧ (3 : Nat) ≤ 3 ∧
      successesOf ([(1, Except.ok 10), (2, Except.error 7), (3, Except.ok 30)] :
        List (Nat × Except Nat Nat)) = [10, 30] ∧
      failuresOf ([(1, Except.ok 10), (2, Except.error 7), (3, Except.ok 30)] :
        List (Nat × Except Nat Nat)) = [7] ∧
      ((∃ errs, executeParallel 2 false 3
            ([(1, Except.ok 10), (2, Except.error 7), (3, Except.ok 30)] :
              List (Nat × Except Nat Nat)) [] [] =
          some (Except.ok (successesOf ([(1, Except.ok 10), (2, Except.error 7),
            (3, Except.ok 30)] : List (Nat × Except Nat Nat)), errs)) ∧
          errs.Perm (failuresOf ([(1, Except.ok 10), (2, Except.error 7),
            (3, Except.ok 30)] : List (Nat × Except Nat Nat)))) ∧
        (∃ errs, executeParallelTasks 2 false 50 3
            ([(some 1, Except.ok 10), (some 2, Except.error 7), (some 3, Except.ok 30)] :
              List (Option Nat × Except Nat Nat)) [] [] =
          some (Except.ok (successesOf
            (([(some 1, Except.ok 10), (some 2, Except.error 7), (some 3, Except.ok 30)] :
              List (Option Nat × Except Nat Nat)).map (raceTimeout 50)), errs)) ∧
          errs.Perm (failuresOf
            (([(some 1, Except.ok 10), (some 2, Except.error 7), (some 3, Except.ok 30)] :
              List (Option Nat × Except Nat Nat)).map (raceTimeout 50))))) :=
  ⟨by decide, by decide, by decide, by decide, by decide,
    partial_mode_survivor_order 2 3 50 (by decide)
      [(1, Except.ok 10), (2, Except.error 7), (3, Except.ok 30)] (by decide)
      [(some 1, Except.ok 10), (some 2, Except.error 7), (some 3, Except.ok 30)] (by decide)⟩

/-- C6: in abort mode (`abortOnError = true`), if some task fails, the whole
call fails with the temporally first failing task's error (the
earliest-settling rejection of the earliest batch containing one) and returns
no successful results — accumulated results of earlier batches are discarded. -/
theorem abort_mode_first_failure {ε α : Type _} (mc fuel tm : Nat) (hmc : 1 ≤ mc)
    (tasks : List (Nat × Except ε α)) (hfuel : tasks.length ≤ fuel)
    (tasks2 : List (Option Nat × Except ε α)) (hfuel2 : tasks2.length ≤ fuel) :
    (failuresOf tasks ≠ [] → ∃ e, firstFailure mc fuel tasks = some e ∧
        executeParallel mc true fuel tasks [] [] = some (Except.error e)) ∧
    (failuresOf (tasks2.map (raceTimeout tm)) ≠ [] →
      ∃ e, firstFailure mc fuel (tasks2.map (raceTimeout tm)) = some e ∧
        executeParallelTasks mc true tm fuel tasks2 [] [] = some (Except.error e)) := by
  constructor
  · intro hfail
    obtain ⟨e, he⟩ := firstFailure_of_failures mc hmc fuel tasks hfuel hfail
    exact ⟨e, he, executeParallel_abort mc fuel tasks [] [] e he⟩
  · intro hfail
    obtain ⟨e, he⟩ := firstFailure_of_failures mc hmc fuel (tasks2.map (raceTimeout tm))
      (by simpa using hfuel2) hfail
    refine ⟨e, he, ?_⟩
    rw [executeParallelTasks_eq]
    exact executeParallel_abort mc fuel _ [] [] e he

/-- Witness for `abort_mode_first_failure`: a slow success and a fast failure
in the same batch; the runs reject with the fast failure's error 9. -/
theorem abort_mode_first_failure_witness :
    1 ≤ 2 ∧ (2 : Nat) ≤ 2 ∧ (2 : Nat) ≤ 2 ∧
      failuresOf ([(5, Except.ok 1), (2, Except.error 9)] : List (Nat × Except Nat Nat)) ≠ [] ∧
      failuresOf (([(some 5, Except.ok 1), (some 2, Except.error 9)] :
        List (Option Nat × Except Nat Nat)).map (raceTimeout 50)) ≠ [] ∧
      ((failuresOf ([(5, Except.ok 1), (2, Except.error 9)] :
          List (Nat × Except Nat Nat)) ≠ [] →
        ∃ e, firstFailure 2 2 ([(5, Except.ok 1), (2, Except.error 9)] :
            List (Nat × Except Nat Nat)) = some e ∧
          executeParallel 2 true 2 ([(5, Except.ok 1), (2, Except.error 9)] :
            List (Nat × Except Nat Nat)) [] [] = some (Except.error e)) ∧
      (failuresOf (([(some 5, Except.ok 1), (some 2, Except.error 9)] :
          List (Option Nat × Except Nat Nat)).map (raceTimeout 50)) ≠ [] →
        ∃ e, firstFailure 2 2 (([(some 5, Except.ok 1), (some 2, Except.error 9)] :
            List (Option Nat × Except Nat Nat)).map (raceTimeout 50)) = some e ∧
          executeParallelTasks 2 true 50 2
            ([(some 5, Except.ok 1), (some 2, Except.error 9)] :
              List (Option Nat × Except Nat Nat)) [] [] = some (Except.error e))) :=
  ⟨by decide, by decide, by decide, by decide, by decide,
    abort_mode_first_failure 2 2 50 (by decide)
      [(5, Except.ok 1), (2, Except.error 9)] (by decide)
      [(some 5, Except.ok 1), (some 2, Except.error 9)] (by decide)⟩

/-- C7 (behavior at the failing input): with `maxConcurrent = 0` and a
non-empty task list, both batch runners' `for (let i = 0; i < tasks.length;
i += maxConcurrent)` loop never advances `i`: the slice is empty, no task is
ever run, no error of any kind (in particular no configuration error) is
thrown, and the call never returns — every iteration budget is exhausted. -/
theorem zero_concurrency_diverges (ab : Bool) :
    ∀ fuel : Nat,
      executeParallel 0 ab fuel
        ([((0 : Nat), (Except.ok 0 : Except Nat Nat))]) [] [] = none ∧
      executeParallelTasks 0 ab 60000 fuel
        ([((some 0 : Option Nat), (Except.ok 0 : Except Nat Nat))]) [] [] = none := by
  intro fuel
  induction fuel with
  | zero => exact ⟨rfl, rfl⟩
  | succ n ih =>
    cases ab with
    | false =>
      constructor
      · rw [executeParallel]
        · simpa [settleErrors, sortByTime, successesOf] using ih.1
        · simp
      · rw [executeParallelTasks]
        · simpa [settleErrors, sortByTime, successesOf] using ih.2
        · simp
    | true =>
      constructor
      · rw [executeParallel]
        · simpa [settleErrors, sortByTime, successesOf] using ih.1
        · simp
      · rw [executeParallelTasks]
        · simpa [settleErrors, sortByTime, successesOf] using ih.2
        · simp

/-- A task that never settles, or settles only after the timer, loses the race:
the raced promise rejects with the runner's timeout error at `timeoutMs`,
whatever the task's eventual outcome. -/
theorem raceTimeout_late {ε α : Type _} (tm : Nat) (tj : Option Nat) (o : Except ε α)
    (htj : tj = none ∨ ∃ t, tj = some t ∧ tm < t) :
    raceTimeout tm (tj, o) = (tm, Except.error (RunError.timeout tm)) := by
  rcases htj with h | ⟨t, h, hlt⟩
  · subst h; rfl
  · subst h
    have hnot : ¬ (t ≤ tm) := by omega
    simp [raceTimeout, hnot]

/-- C8: each task races a `timeoutMs` timer; a task that does not settle within
`timeoutMs` (it never settles or settles later) is treated as a failed task:
in partial mode it contributes no success entry, its timeout error is
accumulated, and the run's result is independent of the task's eventual
(discarded) outcome. -/
theorem timeout_treated_as_failure {ε α : Type _} (mc fuel tm : Nat) (hmc : 1 ≤ mc)
    (pre post : List (Option Nat × Except ε α)) (tj : Option Nat)
    (htj : tj = none ∨ ∃ t, tj = some t ∧ tm < t)
    (hfuel : pre.length + post.length + 1 ≤ fuel) (o o' : Except ε α) :
    executeParallelTasks mc false tm fuel (pre ++ (tj, o) :: post) [] [] =
      executeParallelTasks mc false tm fuel (pre ++ (tj, o') :: post) [] [] ∧
    ∃ errs, executeParallelTasks mc false tm fuel (pre ++ (tj, o) :: post) [] [] =
        some (Except.ok (successesOf ((pre ++ post).map (raceTimeout tm)), errs)) ∧
      RunError.timeout tm ∈ errs := by
  have hmap : ∀ (u : Except ε α), (pre ++ (tj, u) :: post).map (raceTimeout tm) =
      pre.map (raceTimeout tm) ++
        (tm, Except.error (RunError.timeout tm)) :: post.map (raceTimeout tm) := by
    intro u
    rw [List.map_append, List.map_cons, raceTimeout_late tm tj u htj]
  constructor
  · rw [executeParallelTasks_eq, executeParallelTasks_eq, hmap o, hmap o']
  · rw [executeParallelTasks_eq, hmap o]
    have hlen : (pre.map (raceTimeout tm) ++
        (tm, Except.error (RunError.timeout tm)) :: post.map (raceTimeout tm)).length ≤ fuel := by
      simp only [List.length_append, List.length_cons, List.length_map]
      omega
    obtain ⟨E, hrun, hperm⟩ := executeParallel_partial mc hmc fuel _ [] [] hlen
    have hsucc : successesOf (pre.map (raceTimeout tm) ++
          ((tm, Except.error (RunError.timeout tm)) :
            Nat × Except (RunError ε) α) :: post.map (raceTimeout tm))
        = successesOf ((pre ++ post).map (raceTimeout tm)) := by
      rw [successesOf_append, List.map_append, successesOf_append]
      simp [successesOf, List.filterMap_cons, okPart]
    refine ⟨E, ?_, ?_⟩
    · rw [hrun, hsucc]
      simp
    · have hmem : RunError.timeout tm ∈ failuresOf (pre.map (raceTimeout tm) ++
          ((tm, Except.error (RunError.timeout tm)) :
            Nat × Except (RunError ε) α) :: post.map (raceTimeout tm)) := by
        rw [failuresOf_append]
        apply List.mem_append_right
        simp [failuresOf, List.filterMap_cons, errPart]
      exact hperm.mem_iff.mpr hmem

/-- Witness for `timeout_treated_as_failure`: a settling task followed by a
never-settling one, `timeoutMs = 50`: the timeout error is collected and the
never-settling task's eventual outcome (ok 99 vs error 5) is irrelevant. -/
theorem timeout_treated_as_failure_witness :
    1 ≤ 1 ∧ (1 + 0 + 1 : Nat) ≤ 2 ∧
      (executeParallelTasks 1 false 50 2
          (([(some 1, Except.ok 10)] : List (Option Nat × Except Nat Nat)) ++
            (none, Except.ok 99) :: []) [] [] =
        executeParallelTasks 1 false 50 2
          (([(some 1, Except.ok 10)] : List (Option Nat × Except Nat Nat)) ++
            (none, Except.error 5) :: []) [] [] ∧
      ∃ errs, executeParallelTasks 1 false 50 2
          (([(some 1, Except.ok 10)] : List (Option Nat × Except Nat Nat)) ++
            (none, Except.ok 99) :: []) [] [] =
        some (Except.ok (successesOf
          ((([(some 1, Except.ok 10)] : List (Option Nat × Except Nat Nat)) ++ []).map
            (raceTimeout 50)), errs)) ∧
        RunError.timeout 50 ∈ errs) :=
  ⟨by decide, by decide,
    timeout_treated_as_failure 1 2 50 (by decide) [(some 1, Except.ok 10)] []
      none (Or.inl rfl) (by decide) (Except.ok 99) (Except.error 5)⟩

end DeepResearch
